import Mathlib

/-!
# Pickleball open-play rotation engine: shallow embedding and verification

This file embeds the core state and operations of `src/app.py` (a
Streamlit pickleball open-play scheduler) as Lean definitions and proves
properties of them.  Player names are `String`s, the streak dictionary is
an insertion-ordered association list with Python-`dict` update semantics,
and fallible operations (Python code that can raise `IndexError`) return
`Option`.
-/

namespace Pickleball

/-- A history record, as appended by `process_court_winner`
(`app.py` lines 102–106): 1-based court label, declared winning team,
and the four pre-resolution players. -/
structure HistEntry where
  court : Nat
  team_won : String
  players : List String
deriving DecidableEq, Repr

/-- The persisted session state (`load_json` default shape,
`app.py` lines 13–20). -/
structure AppData where
  players : List String
  queue : List String
  courts : List (List String)
  streaks : List (String × Nat)
  history : List HistEntry
  auto_fill : Bool
deriving DecidableEq, Repr

/-- `streaks.get(p, 0)`: first binding of `p` in the association list,
defaulting to 0 as every read site in `app.py` does. -/
def dictGet (m : List (String × Nat)) (p : String) : Nat :=
  match m with
  | [] => 0
  | (k, v) :: rest => if k = p then v else dictGet rest p

/-- `streaks[p] = v` with Python-`dict` semantics: overwrite the existing
binding in place, else append a new binding. -/
def dictSet (m : List (String × Nat)) (p : String) (v : Nat) : List (String × Nat) :=
  match m with
  | [] => [(p, v)]
  | (k, w) :: rest => if k = p then (k, v) :: rest else (k, w) :: dictSet rest p v

/-- The default empty structure returned by `load_json` when the data file
is missing (`app.py` lines 13–20), also the state installed by
`reset_everything` (lines 42–49). -/
def initialData : AppData :=
  { players := [], queue := [], courts := [[], [], []], streaks := [], history := [],
    auto_fill := false }

/-- `reset_everything` (`app.py` lines 41–50): replace the whole state by
the default empty structure (history included). -/
def reset_everything (_ : AppData) : AppData := initialData

/-- The loop body shared by `app.py` lines 87–90 and 121–124: for each
player in order, set the streak to 0 and append to the queue tail unless
already present in the queue.  First component: streak dict; second:
queue. -/
def enqueueReset : List (String × Nat) × List String → List String →
    List (String × Nat) × List String
  | (m, q), [] => (m, q)
  | (m, q), p :: ps =>
      enqueueReset (dictSet m p 0, if p ∈ q then q else q ++ [p]) ps

/-- The loop of `app.py` lines 83–84: increment each listed player's
streak (via `get(p,0) + 1`) in order. -/
def incStreaks : List (String × Nat) → List String → List (String × Nat)
  | m, [] => m
  | m, p :: ps => incStreaks (dictSet m p (dictGet m p + 1)) ps

/-- `team1 if winning_team == "Team 1" else team2` (`app.py` line 75):
any value other than `"Team 1"` selects Team 2 as winners. -/
def winnersOf (w : String) (cp : List String) : List String :=
  if w = "Team 1" then cp.take 2 else cp.drop 2

/-- `team2 if winning_team == "Team 1" else team1` (`app.py` line 76). -/
def losersOf (w : String) (cp : List String) : List String :=
  if w = "Team 1" then cp.drop 2 else cp.take 2

/-- `[p for p in winners if streaks.get(p,0) < 2]` (`app.py` line 79). -/
def stayingOf (m : List (String × Nat)) (ws : List String) : List String :=
  ws.filter (fun p => decide (dictGet m p < 2))

/-- `[p for p in winners if streaks.get(p,0) >= 2]` (`app.py` line 80). -/
def leavingOf (m : List (String × Nat)) (ws : List String) : List String :=
  ws.filter (fun p => decide (2 ≤ dictGet m p))

/-- The mutation `process_court_winner` performs once the court is known
full (`app.py` lines 72–106): split the four `cp` players into winners
and losers, split winners by current streak, increment the stayers'
streaks, zero and enqueue losers then leaving winners, refill the court
from the queue head (`take`/`drop` of the post-enqueue queue, matching
the pop-if-nonempty loop of lines 94–97), and append the history record. -/
def resolveFull (i : Nat) (w : String) (cp : List String) (d : AppData) : AppData :=
  let staying := stayingOf d.streaks (winnersOf w cp)
  let er := enqueueReset (incStreaks d.streaks staying, d.queue)
      (losersOf w cp ++ leavingOf d.streaks (winnersOf w cp))
  { d with
    streaks := er.1,
    queue := er.2.drop (4 - staying.length),
    courts := d.courts.set i (staying ++ er.2.take (4 - staying.length)),
    history := d.history ++ [⟨i + 1, w, cp⟩] }

/-- `process_court_winner(court_index, winning_team)` (`app.py` lines
66–106).  `none` models the `IndexError` Python raises on line 68 for an
out-of-range index (before any mutation); a non-full court returns the
state unchanged (the early `return` of line 70). -/
def process_court_winner (i : Nat) (w : String) (d : AppData) : Option AppData :=
  match d.courts[i]? with
  | none => none
  | some cp => if cp.length = 4 then some (resolveFull i w cp d) else some d

/-- The loop of `assign_all_courts` (`app.py` lines 57–59) over the court
list, threading the queue: a court with fewer than 4 players is replaced
by the first 4 of the queue whenever the queue holds at least 4. -/
def assignCourtsAux : List (List String) → List String →
    List (List String) × List String
  | [], q => ([], q)
  | c :: cs, q =>
      if c.length < 4 ∧ 4 ≤ q.length then
        let r := assignCourtsAux cs (q.drop 4)
        (q.take 4 :: r.1, r.2)
      else
        let r := assignCourtsAux cs q
        (c :: r.1, r.2)

/-- `assign_all_courts` (`app.py` lines 53–60). -/
def assign_all_courts (d : AppData) : AppData :=
  let r := assignCourtsAux d.courts d.queue
  { d with courts := r.1, queue := r.2 }

/-- `auto_fill_if_enabled` (`app.py` lines 62–64). -/
def auto_fill_if_enabled (d : AppData) : AppData :=
  if d.auto_fill then assign_all_courts d else d

/-- `reset_single_court(court_index)` (`app.py` lines 118–127): zero the
streak of every occupant and enqueue each at the tail unless already
queued, empty the court, then auto-fill if enabled.  `none` models the
`IndexError` for an out-of-range index on line 120. -/
def reset_single_court (i : Nat) (d : AppData) : Option AppData :=
  match d.courts[i]? with
  | none => none
  | some cp =>
      let er := enqueueReset (d.streaks, d.queue) cp
      some (auto_fill_if_enabled
        { d with streaks := er.1, queue := er.2, courts := d.courts.set i [] })

/-- `reset_all_courts` (`app.py` lines 129–132): reset every court in
ascending index order. -/
def reset_all_courts (d : AppData) : AppData :=
  (List.range d.courts.length).foldl
    (fun d i => (reset_single_court i d).getD d) d

/-- One iteration of `update_all_courts` (`app.py` lines 110–113): read
the court's selected winner; only the two team markers trigger
`process_court_winner`, everything else is skipped. -/
def updateOne (sel : Nat → String) (d : AppData) (i : Nat) : AppData :=
  if sel i = "Team 1" ∨ sel i = "Team 2" then
    (process_court_winner i (sel i) d).getD d
  else d

/-- `update_all_courts` (`app.py` lines 108–116): process every court in
ascending order, then auto-fill if enabled. -/
def update_all_courts (sel : Nat → String) (d : AppData) : AppData :=
  auto_fill_if_enabled ((List.range d.courts.length).foldl (updateOne sel) d)

/-- The admission loop of `app.py` lines 150–154: each name not already
in the roster is appended to the roster and queue tail with streak 0;
known names are skipped. -/
def add_players (names : List String) (d : AppData) : AppData :=
  names.foldl
    (fun d p =>
      if p ∈ d.players then d
      else
        { d with
          players := d.players ++ [p],
          queue := d.queue ++ [p],
          streaks := dictSet d.streaks p 0 })
    d

/-- The sidebar auto-fill checkbox assignment (`app.py` line 138). -/
def set_auto_fill (b : Bool) (d : AppData) : AppData :=
  { d with auto_fill := b }

/-- Sample state: a partially occupied court 0, used to exercise the
non-full-court branch of `process_court_winner`. -/
def sampleNonFull : AppData :=
  { players := ["A"], queue := [], courts := [["A"], [], []], streaks := [],
    history := [], auto_fill := false }

/-- Sample state: one full court `[A,B,C,D]` with empty queue and empty
streak dictionary. -/
def sampleFull : AppData :=
  { players := ["A", "B", "C", "D"], queue := [],
    courts := [["A", "B", "C", "D"], [], []], streaks := [], history := [],
    auto_fill := false }

/-- `sampleFull` after a `"Banana"` winning side is processed: the code
treats any non-`"Team 1"` value as a Team 2 win. -/
def sampleFullAfterBanana : AppData :=
  { players := ["A", "B", "C", "D"], queue := [],
    courts := [["C", "D", "A", "B"], [], []],
    streaks := [("C", 1), ("D", 1), ("A", 0), ("B", 0)],
    history := [⟨1, "Banana", ["A", "B", "C", "D"]⟩], auto_fill := false }

/-- Sample state: full court 0 where both Team 1 players already carry a
streak of 1 (each has won once and stayed). -/
def sampleStreak1 : AppData :=
  { players := ["A", "B", "C", "D"], queue := [],
    courts := [["A", "B", "C", "D"], [], []],
    streaks := [("A", 1), ("B", 1)], history := [], auto_fill := false }

/-- `sampleStreak1` after `resolve(0, Team 1)`: both streak-1 winners
stay on the court with streak 2; the losers cycle through the queue and
back onto the court. -/
def sampleStreak1After : AppData :=
  { players := ["A", "B", "C", "D"], queue := [],
    courts := [["A", "B", "C", "D"], [], []],
    streaks := [("A", 2), ("B", 2), ("C", 0), ("D", 0)],
    history := [⟨1, "Team 1", ["A", "B", "C", "D"]⟩], auto_fill := false }

/-- Sample state: queue `[A,B,C,D]` and three empty courts (allocator
Scenario 1). -/
def sampleQueue4 : AppData :=
  { players := ["A", "B", "C", "D"], queue := ["A", "B", "C", "D"],
    courts := [[], [], []], streaks := [], history := [], auto_fill := false }

/-- `sampleQueue4` after the allocator runs: court 0 took the whole
queue. -/
def sampleQueue4Filled : AppData :=
  { players := ["A", "B", "C", "D"], queue := [],
    courts := [["A", "B", "C", "D"], [], []], streaks := [], history := [],
    auto_fill := false }

/-- Sample state: court 0 holds a single stranded player `X` while four
players wait in the queue; `X` appears nowhere else. -/
def sampleStranded : AppData :=
  { players := ["X", "A", "B", "C", "D"], queue := ["A", "B", "C", "D"],
    courts := [["X"], [], []], streaks := [], history := [], auto_fill := false }

/-- Sample state: three full courts of 12 distinct players, empty queue,
auto-fill disabled (reset Scenario 4). -/
def sampleThreeCourts : AppData :=
  { players := ["A", "B", "C", "D", "E", "F", "G", "H", "I", "J", "K", "L"],
    queue := [],
    courts := [["A", "B", "C", "D"], ["E", "F", "G", "H"], ["I", "J", "K", "L"]],
    streaks := [("A", 1), ("E", 2)], history := [], auto_fill := false }

/-- Sample state with one recorded game, used to exhibit that the full
reset clears history. -/
def sampleWithHistory : AppData :=
  { players := ["A", "B", "C", "D"], queue := [],
    courts := [["C", "D", "A", "B"], [], []],
    streaks := [("C", 1), ("D", 1), ("A", 0), ("B", 0)],
    history := [⟨1, "Team 2", ["A", "B", "C", "D"]⟩], auto_fill := false }

/-- The state-changing entry points a driver can invoke
(`app.py` §Sidebar/§Courts tab). -/
inductive Op where
  | addPlayers (names : List String)
  | setAutoFill (b : Bool)
  | assignAll
  | processWinner (i : Nat) (w : String)
  | updateAll (sel : Nat → String)
  | resetCourt (i : Nat)
  | resetAllCourts
  | resetEverything

/-- Apply one operation; a raised `IndexError` (`none`) leaves the
session state as it was. -/
def applyOp (d : AppData) : Op → AppData
  | .addPlayers ns => add_players ns d
  | .setAutoFill b => set_auto_fill b d
  | .assignAll => assign_all_courts d
  | .processWinner i w => (process_court_winner i w d).getD d
  | .updateAll sel => update_all_courts sel d
  | .resetCourt i => (reset_single_court i d).getD d
  | .resetAllCourts => reset_all_courts d
  | .resetEverything => reset_everything d

/-- Run a list of operations from the empty initial state. -/
def runOps (ops : List Op) : AppData := ops.foldl applyOp initialData

/-- The no-duplication invariant: the queue has no repeated name, each
court has no repeated name, distinct courts share no name, no name is
both on a court and in the queue, and every queued or playing name is in
the roster. -/
def Inv (d : AppData) : Prop :=
  d.queue.Nodup ∧
  (∀ c ∈ d.courts, c.Nodup) ∧
  d.courts.Pairwise List.Disjoint ∧
  (∀ c ∈ d.courts, c.Disjoint d.queue) ∧
  (∀ x ∈ d.queue, x ∈ d.players) ∧
  (∀ c ∈ d.courts, ∀ x ∈ c, x ∈ d.players)

/-! ## Basic lemmas about the streak dictionary -/

theorem dictGet_dictSet_self (m : List (String × Nat)) (p : String) (v : Nat) :
    dictGet (dictSet m p v) p = v := by
  induction m with
  | nil => simp [dictGet, dictSet]
  | cons kv rest ih =>
      obtain ⟨k, w⟩ := kv
      by_cases hk : k = p
      · subst hk; simp [dictGet, dictSet]
      · simp [dictGet, dictSet, hk, ih]

theorem dictGet_dictSet_ne (m : List (String × Nat)) (p q : String) (v : Nat)
    (h : p ≠ q) : dictGet (dictSet m p v) q = dictGet m q := by
  induction m with
  | nil => simp [dictGet, dictSet, h]
  | cons kv rest ih =>
      obtain ⟨k, w⟩ := kv
      by_cases hk : k = p
      · subst hk; simp [dictGet, dictSet, h]
      · simp only [dictSet, if_neg hk, dictGet]
        by_cases hq : k = q <;> simp [hq, ih]

/-! ## Lemmas about the shared reset-and-enqueue loop -/

theorem enqueueReset_fst_get (ps : List String) (m : List (String × Nat))
    (q : List String) (x : String) :
    dictGet (enqueueReset (m, q) ps).1 x = if x ∈ ps then 0 else dictGet m x := by
  induction ps generalizing m q with
  | nil => simp [enqueueReset]
  | cons p ps ih =>
      simp only [enqueueReset]
      rw [ih]
      by_cases hx : x ∈ ps
      · simp [hx]
      · by_cases hxp : x = p
        · subst hxp; simp [hx, dictGet_dictSet_self]
        · simp [hx, hxp, dictGet_dictSet_ne _ _ _ _ (Ne.symm hxp)]

theorem enqueueReset_snd_mem (ps : List String) (m : List (String × Nat))
    (q : List String) (x : String) :
    x ∈ (enqueueReset (m, q) ps).2 ↔ x ∈ q ∨ x ∈ ps := by
  induction ps generalizing m q with
  | nil => simp [enqueueReset]
  | cons p ps ih =>
      simp only [enqueueReset]
      rw [ih]
      by_cases hp : p ∈ q
      · simp only [if_pos hp, List.mem_cons]
        constructor
        · rintro (hxq | hxs)
          · exact Or.inl hxq
          · exact Or.inr (Or.inr hxs)
        · rintro (hxq | rfl | hxs)
          · exact Or.inl hxq
          · exact Or.inl hp
          · exact Or.inr hxs
      · simp only [if_neg hp, List.mem_append, List.mem_singleton, List.mem_cons]
        tauto

theorem enqueueReset_snd_nodup (ps : List String) (m : List (String × Nat))
    (q : List String) (hq : q.Nodup) : (enqueueReset (m, q) ps).2.Nodup := by
  induction ps generalizing m q with
  | nil => simpa [enqueueReset] using hq
  | cons p ps ih =>
      simp only [enqueueReset]
      by_cases hp : p ∈ q
      · simpa [hp] using ih _ _ hq
      · refine ih _ _ ?_
        simp only [if_neg hp]
        rw [List.nodup_append]
        exact ⟨hq, List.nodup_singleton p, by
          intro x hx hx1
          rw [List.mem_singleton] at hx1
          exact hp (hx1 ▸ hx)⟩

theorem enqueueReset_snd_eq (ps : List String) (m : List (String × Nat))
    (q : List String) (hnd : ps.Nodup) (hdisj : ∀ p ∈ ps, p ∉ q) :
    (enqueueReset (m, q) ps).2 = q ++ ps := by
  induction ps generalizing m q with
  | nil => simp [enqueueReset]
  | cons p ps ih =>
      have hp : p ∉ q := hdisj p (List.mem_cons_self p ps)
      have hnd' : ps.Nodup := hnd.of_cons
      have hpp : p ∉ ps := by
        intro hc
        exact (List.nodup_cons.mp hnd).1 hc
      simp only [enqueueReset, if_neg hp]
      rw [ih _ _ hnd' ?_]
      · simp
      · intro x hx
        simp only [List.mem_append, List.mem_singleton]
        rintro (hxq | rfl)
        · exact hdisj x (List.mem_cons_of_mem p hx) hxq
        · exact hpp hx

/-! ## Lemmas about the streak-increment loop -/

theorem incStreaks_get (ps : List String) (m : List (String × Nat)) (x : String)
    (hnd : ps.Nodup) :
    dictGet (incStreaks m ps) x =
      if x ∈ ps then dictGet m x + 1 else dictGet m x := by
  induction ps generalizing m with
  | nil => simp [incStreaks]
  | cons p ps ih =>
      have hnd' : ps.Nodup := hnd.of_cons
      have hpp : p ∉ ps := (List.nodup_cons.mp hnd).1
      simp only [incStreaks]
      rw [ih _ hnd']
      by_cases hxp : x = p
      · subst hxp
        simp [hpp, dictGet_dictSet_self]
      · by_cases hx : x ∈ ps <;>
          simp [hx, hxp, dictGet_dictSet_ne _ _ _ _ (Ne.symm hxp)]

/-! ## Lemmas about the court allocator -/

theorem assignCourtsAux_cons_fill (c : List String) (cs : List (List String))
    (q : List String) (h1 : c.length < 4) (h2 : 4 ≤ q.length) :
    assignCourtsAux (c :: cs) q =
      (q.take 4 :: (assignCourtsAux cs (q.drop 4)).1,
        (assignCourtsAux cs (q.drop 4)).2) := by
  simp [assignCourtsAux, h1, h2]

theorem assignCourtsAux_cons_skip (c : List String) (cs : List (List String))
    (q : List String) (h : ¬(c.length < 4 ∧ 4 ≤ q.length)) :
    assignCourtsAux (c :: cs) q =
      (c :: (assignCourtsAux cs q).1, (assignCourtsAux cs q).2) := by
  simp only [assignCourtsAux, if_neg h]

theorem assignCourtsAux_full_or_unchanged (cs : List (List String))
    (q : List String) (j : Nat) :
    (assignCourtsAux cs q).1.getD j [] = cs.getD j [] ∨
      ((assignCourtsAux cs q).1.getD j []).length = 4 := by
  induction cs generalizing q j with
  | nil => simp [assignCourtsAux]
  | cons c cs ih =>
      by_cases hc : c.length < 4 ∧ 4 ≤ q.length
      · rw [assignCourtsAux_cons_fill c cs q hc.1 hc.2]
        cases j with
        | zero =>
            right
            simp [List.length_take, Nat.min_eq_left hc.2]
        | succ j => simpa using ih (q.drop 4) j
      · rw [assignCourtsAux_cons_skip c cs q hc]
        cases j with
        | zero => left; simp
        | succ j => simpa using ih q j

/-! ## Lemmas about player admission -/

theorem add_players_cons (p : String) (ns : List String) (d : AppData) :
    add_players (p :: ns) d = add_players ns (add_players [p] d) := by
  simp [add_players]

theorem add_players_players_mono (ns : List String) (d : AppData) (p : String)
    (hp : p ∈ d.players) : p ∈ (add_players ns d).players := by
  induction ns generalizing d with
  | nil => simpa [add_players] using hp
  | cons n ns ih =>
      rw [add_players_cons]
      refine ih _ ?_
      by_cases hn : n ∈ d.players
      · simpa [add_players, hn] using hp
      · simp only [add_players, List.foldl_cons, if_neg hn, List.foldl_nil]
        exact List.mem_append_left _ hp

theorem add_players_mem_players (ns : List String) (d : AppData) (p : String)
    (hp : p ∈ ns) : p ∈ (add_players ns d).players := by
  induction ns generalizing d with
  | nil => cases hp
  | cons n ns ih =>
      rw [add_players_cons]
      rcases List.mem_cons.mp hp with rfl | hp'
      · refine add_players_players_mono _ _ _ ?_
        by_cases hn : p ∈ d.players
        · simp [add_players, hn]
        · simp [add_players, hn]
      · exact ih _ hp'

theorem add_players_of_all_known (ns : List String) (d : AppData)
    (h : ∀ p ∈ ns, p ∈ d.players) : add_players ns d = d := by
  induction ns with
  | nil => simp [add_players]
  | cons n ns ih =>
      rw [add_players_cons]
      have hn : n ∈ d.players := h n (List.mem_cons_self n ns)
      have h1 : add_players [n] d = d := by simp [add_players, hn]
      rw [h1]
      exact ih fun p hp => h p (List.mem_cons_of_mem n hp)

/-! ## Lemmas about team splitting and the streak cap -/

theorem winnersOf_sublist (w : String) (cp : List String) :
    (winnersOf w cp).Sublist cp := by
  unfold winnersOf
  split
  · exact List.take_sublist 2 cp
  · exact List.drop_sublist 2 cp

theorem losersOf_sublist (w : String) (cp : List String) :
    (losersOf w cp).Sublist cp := by
  unfold losersOf
  split
  · exact List.drop_sublist 2 cp
  · exact List.take_sublist 2 cp

theorem winnersOf_disjoint_losersOf (w : String) (cp : List String)
    (hnd : cp.Nodup) : (winnersOf w cp).Disjoint (losersOf w cp) := by
  unfold winnersOf losersOf
  split
  · exact List.disjoint_take_drop hnd (le_refl 2)
  · exact List.disjoint_comm.mp (List.disjoint_take_drop hnd (le_refl 2))

theorem stayingOf_sublist (m : List (String × Nat)) (ws : List String) :
    (stayingOf m ws).Sublist ws :=
  List.filter_sublist ws

theorem leavingOf_sublist (m : List (String × Nat)) (ws : List String) :
    (leavingOf m ws).Sublist ws :=
  List.filter_sublist ws

theorem mem_stayingOf (m : List (String × Nat)) (ws : List String) (x : String) :
    x ∈ stayingOf m ws ↔ x ∈ ws ∧ dictGet m x < 2 := by
  simp [stayingOf, List.mem_filter]

theorem mem_leavingOf (m : List (String × Nat)) (ws : List String) (x : String) :
    x ∈ leavingOf m ws ↔ x ∈ ws ∧ 2 ≤ dictGet m x := by
  simp [leavingOf, List.mem_filter]

theorem stayingOf_disjoint_leavingOf (m : List (String × Nat)) (ws : List String) :
    (stayingOf m ws).Disjoint (leavingOf m ws) := by
  intro x hx hx'
  rw [mem_stayingOf] at hx
  rw [mem_leavingOf] at hx'
  omega

/-- The "losers then leaving winners" list enqueued by
`process_court_winner` has no duplicates when the court has none. -/
theorem resolve_LL_nodup (w : String) (cp : List String) (m : List (String × Nat))
    (hnd : cp.Nodup) :
    (losersOf w cp ++ leavingOf m (winnersOf w cp)).Nodup := by
  rw [List.nodup_append]
  refine ⟨hnd.sublist (losersOf_sublist w cp),
    (hnd.sublist (winnersOf_sublist w cp)).filter _, ?_⟩
  intro x hxl hxleave
  have hxw : x ∈ winnersOf w cp := (leavingOf_sublist _ _).subset hxleave
  exact winnersOf_disjoint_losersOf w cp hnd hxw hxl

theorem resolve_LL_subset (w : String) (cp : List String) (m : List (String × Nat))
    (x : String) (hx : x ∈ losersOf w cp ++ leavingOf m (winnersOf w cp)) :
    x ∈ cp := by
  rcases List.mem_append.mp hx with h | h
  · exact (losersOf_sublist w cp).subset h
  · exact (winnersOf_sublist w cp).subset ((leavingOf_sublist _ _).subset h)

/-- On a duplicate-free court disjoint from the queue, the
membership-guarded enqueue loop appends the losers and then the leaving
winners, in order, to the queue tail. -/
theorem resolve_queue_eq (w : String) (cp : List String)
    (m m' : List (String × Nat)) (q : List String) (hnd : cp.Nodup)
    (hdq : ∀ p ∈ cp, p ∉ q) :
    (enqueueReset (m', q) (losersOf w cp ++ leavingOf m (winnersOf w cp))).2 =
      q ++ losersOf w cp ++ leavingOf m (winnersOf w cp) := by
  rw [enqueueReset_snd_eq _ _ _ (resolve_LL_nodup w cp m hnd)
    (fun p hp => hdq p (resolve_LL_subset w cp m p hp)), List.append_assoc]

/-- After `resolveFull`, a staying winner's streak is its old streak
plus one. -/
theorem resolve_streak_staying (i : Nat) (w : String) (cp : List String)
    (d : AppData) (x : String) (hnd : cp.Nodup)
    (hx : x ∈ stayingOf d.streaks (winnersOf w cp)) :
    dictGet (resolveFull i w cp d).streaks x = dictGet d.streaks x + 1 := by
  have hwnd : (winnersOf w cp).Nodup := hnd.sublist (winnersOf_sublist w cp)
  have hxw : x ∈ winnersOf w cp := (stayingOf_sublist _ _).subset hx
  have hxLL : x ∉ losersOf w cp ++ leavingOf d.streaks (winnersOf w cp) := by
    intro hc
    rcases List.mem_append.mp hc with h | h
    · exact winnersOf_disjoint_losersOf w cp hnd hxw h
    · exact stayingOf_disjoint_leavingOf d.streaks (winnersOf w cp) hx h
  simp only [resolveFull]
  rw [enqueueReset_fst_get, if_neg hxLL,
    incStreaks_get (stayingOf d.streaks (winnersOf w cp)) d.streaks x
      (hnd.sublist ((stayingOf_sublist _ _).trans (winnersOf_sublist w cp))),
    if_pos hx]

/-- After `resolveFull`, a loser's or leaving winner's streak is 0. -/
theorem resolve_streak_leaving (i : Nat) (w : String) (cp : List String)
    (d : AppData) (x : String)
    (hx : x ∈ losersOf w cp ++ leavingOf d.streaks (winnersOf w cp)) :
    dictGet (resolveFull i w cp d).streaks x = 0 := by
  simp only [resolveFull]
  rw [enqueueReset_fst_get, if_pos hx]

/-! ## Claim theorems: error handling and allocator -/

/-- C4: `process_court_winner` on a valid court index whose court does not
hold exactly 4 players returns the state unchanged and raises no error
(the early `return` of `app.py` line 70). -/
theorem resolve_nonfull_is_noop (d : AppData) (i : Nat) (w : String)
    (cp : List String) (hget : d.courts[i]? = some cp)
    (hlen : cp.length ≠ 4) : process_court_winner i w d = some d := by
  simp [process_court_winner, hget, hlen]

theorem resolve_nonfull_is_noop_witness :
    sampleNonFull.courts[0]? = some ["A"] ∧
    (["A"] : List String).length ≠ 4 ∧
    process_court_winner 0 "Team 1" sampleNonFull = some sampleNonFull :=
  ⟨by decide, by decide,
    resolve_nonfull_is_noop sampleNonFull 0 "Team 1" ["A"] (by decide) (by decide)⟩

/-- C3 counterexample: on a full court, `process_court_winner` does NOT
reject a malformed winning-side value.  With winning side `"Banana"` it
resolves the game as a Team 2 win: streaks, queue, court and history all
change, and no error is signalled. -/
theorem malformed_side_not_rejected :
    process_court_winner 0 "Banana" sampleFull = some sampleFullAfterBanana ∧
    process_court_winner 0 "Banana" sampleFull ≠ some sampleFull ∧
    process_court_winner 0 "Banana" sampleFull ≠ none := by
  refine ⟨by rfl, by decide, by decide⟩

/-- C3 amended: an out-of-range court index makes `process_court_winner`
fail (`none`, modelling the `IndexError`) before any mutation; a
winning-side value other than the two team markers is not rejected by
`process_court_winner` itself — any non-`"Team 1"` value selects Team 2
as winners — while the batch `update_all_courts` iteration skips such a
value, leaving the state unchanged for that court without signalling an
error. -/
theorem invalid_input_handling (d : AppData) (i : Nat) :
    (∀ w : String, d.courts[i]? = none → process_court_winner i w d = none) ∧
    (∀ w : String, w ≠ "Team 1" → w ≠ "Team 2" →
        updateOne (fun _ => w) d i = d) ∧
    (∀ (w : String) (cp : List String), w ≠ "Team 1" →
        winnersOf w cp = cp.drop 2 ∧ losersOf w cp = cp.take 2) := by
  refine ⟨?_, ?_, ?_⟩
  · intro w h
    simp [process_court_winner, h]
  · intro w hw1 hw2
    simp [updateOne, hw1, hw2]
  · intro w cp hw1
    constructor
    · simp [winnersOf, hw1]
    · simp [losersOf, hw1]

theorem invalid_input_handling_witness :
    initialData.courts[7]? = none ∧
    process_court_winner 7 "Team 1" initialData = none ∧
    process_court_winner 7 "Banana" initialData = none ∧
    ("Banana" ≠ "Team 1") ∧ ("Banana" ≠ "Team 2") ∧
    updateOne (fun _ => "Banana") initialData 7 = initialData ∧
    winnersOf "Banana" ["A", "B", "C", "D"] =
      (["A", "B", "C", "D"] : List String).drop 2 :=
  ⟨by decide,
    (invalid_input_handling initialData 7).1 "Team 1" (by decide),
    (invalid_input_handling initialData 7).1 "Banana" (by decide),
    by decide, by decide,
    (invalid_input_handling initialData 7).2.1 "Banana" (by decide) (by decide),
    ((invalid_input_handling initialData 7).2.2 "Banana" ["A", "B", "C", "D"]
      (by decide)).1⟩

/-- C8: the allocator visits courts in ascending order; a court with
fewer than 4 players is replaced by exactly the first 4 players of the
queue whenever the queue holds at least 4, and is left as-is otherwise;
on `queue = [A,B,C,D]` with three empty courts it produces
`court0 = [A,B,C,D]` and an empty queue; every output court is either the
untouched input court or holds exactly 4 players. -/
theorem allocator_spec :
    (∀ (c : List String) (cs : List (List String)) (q : List String),
        c.length < 4 → 4 ≤ q.length →
        assignCourtsAux (c :: cs) q =
          (q.take 4 :: (assignCourtsAux cs (q.drop 4)).1,
            (assignCourtsAux cs (q.drop 4)).2) ∧ (q.take 4).length = 4) ∧
    (∀ (c : List String) (cs : List (List String)) (q : List String),
        ¬(c.length < 4 ∧ 4 ≤ q.length) →
        assignCourtsAux (c :: cs) q =
          (c :: (assignCourtsAux cs q).1, (assignCourtsAux cs q).2)) ∧
    assign_all_courts sampleQueue4 = sampleQueue4Filled ∧
    ∀ (cs : List (List String)) (q : List String) (j : Nat),
      (assignCourtsAux cs q).1.getD j [] = cs.getD j [] ∨
        ((assignCourtsAux cs q).1.getD j []).length = 4 := by
  refine ⟨?_, ?_, ?_, ?_⟩
  · intro c cs q h1 h2
    exact ⟨assignCourtsAux_cons_fill c cs q h1 h2, by
      simp [List.length_take, Nat.min_eq_left h2]⟩
  · intro c cs q h
    exact assignCourtsAux_cons_skip c cs q h
  · rfl
  · exact assignCourtsAux_full_or_unchanged

theorem allocator_spec_witness :
    (([] : List String).length < 4) ∧ (4 ≤ (["A", "B", "C", "D"] : List String).length) ∧
    assignCourtsAux ([] :: [[], []]) ["A", "B", "C", "D"] =
      ((["A", "B", "C", "D"] : List String).take 4 ::
          (assignCourtsAux [[], []] ((["A", "B", "C", "D"] : List String).drop 4)).1,
        (assignCourtsAux [[], []] ((["A", "B", "C", "D"] : List String).drop 4)).2) ∧
    ((["A", "B", "C", "D"] : List String).take 4).length = 4 :=
  ⟨by decide, by decide,
    (allocator_spec.1 [] [[], []] ["A", "B", "C", "D"] (by decide) (by decide)).1,
    (allocator_spec.1 [] [[], []] ["A", "B", "C", "D"] (by decide) (by decide)).2⟩

/-- C9: `add_players` appends each name not already in the roster to both
the roster and the queue tail with streak 0, silently ignores names
already in the roster, processes names left to right, and re-submitting
the same list immediately afterwards leaves the state unchanged. -/
theorem add_players_spec :
    (∀ (d : AppData) (p : String), p ∉ d.players →
        add_players [p] d =
          { d with
              players := d.players ++ [p],
              queue := d.queue ++ [p],
              streaks := dictSet d.streaks p 0 }) ∧
    (∀ (d : AppData) (p : String), p ∈ d.players → add_players [p] d = d) ∧
    (∀ (p : String) (ns : List String) (d : AppData),
        add_players (p :: ns) d = add_players ns (add_players [p] d)) ∧
    (∀ (ns : List String) (d : AppData),
        add_players ns (add_players ns d) = add_players ns d) := by
  refine ⟨?_, ?_, ?_, ?_⟩
  · intro d p hp
    simp [add_players, hp]
  · intro d p hp
    simp [add_players, hp]
  · intro p ns d
    exact add_players_cons p ns d
  · intro ns d
    exact add_players_of_all_known ns _ fun p hp => add_players_mem_players ns d p hp

theorem add_players_spec_witness :
    ("A" ∉ initialData.players) ∧
    add_players ["A"] initialData =
      { initialData with
          players := initialData.players ++ ["A"],
          queue := initialData.queue ++ ["A"],
          streaks := dictSet initialData.streaks "A" 0 } ∧
    add_players ["A", "B"] (add_players ["A", "B"] initialData) =
      add_players ["A", "B"] initialData :=
  ⟨by decide, add_players_spec.1 initialData "A" (by decide),
    add_players_spec.2.2.2 ["A", "B"] initialData⟩

/-! ## More allocator lemmas -/

theorem assignCourtsAux_skipFull (cs1 rest : List (List String))
    (q : List String) (hfull : ∀ c ∈ cs1, ¬c.length < 4) :
    assignCourtsAux (cs1 ++ rest) q =
      (cs1 ++ (assignCourtsAux rest q).1, (assignCourtsAux rest q).2) := by
  induction cs1 with
  | nil => simp
  | cons c cs1 ih =>
      have hc : ¬(c.length < 4 ∧ 4 ≤ q.length) := by
        intro hcon
        exact hfull c (List.mem_cons_self c cs1) hcon.1
      rw [List.cons_append, assignCourtsAux_cons_skip _ _ _ hc,
        ih fun c' hc' => hfull c' (List.mem_cons_of_mem c hc')]
      simp

/-- The allocator never introduces a player who is neither in the queue
nor on some court: such a player is absent from every output court and
from the output queue. -/
theorem assignCourtsAux_not_introduced (cs : List (List String))
    (q : List String) (p : String) (hpq : p ∉ q) (hpc : ∀ c ∈ cs, p ∉ c) :
    (∀ c ∈ (assignCourtsAux cs q).1, p ∉ c) ∧ p ∉ (assignCourtsAux cs q).2 := by
  induction cs generalizing q with
  | nil =>
      simp only [assignCourtsAux]
      exact ⟨by simp, hpq⟩
  | cons c cs ih =>
      by_cases hc : c.length < 4 ∧ 4 ≤ q.length
      · rw [assignCourtsAux_cons_fill c cs q hc.1 hc.2]
        have hpq' : p ∉ q.drop 4 := fun h => hpq (List.drop_subset 4 q h)
        have := ih (q.drop 4) hpq'
          fun c' hc' => hpc c' (List.mem_cons_of_mem c hc')
        refine ⟨?_, this.2⟩
        intro c' hc'
        rcases List.mem_cons.mp hc' with rfl | hc''
        · intro h
          exact hpq (List.take_subset 4 q h)
        · exact this.1 c' hc''
      · rw [assignCourtsAux_cons_skip c cs q hc]
        have := ih q hpq fun c' hc' => hpc c' (List.mem_cons_of_mem c hc')
        refine ⟨?_, this.2⟩
        intro c' hc'
        rcases List.mem_cons.mp hc' with rfl | hc''
        · exact hpc c' (List.mem_cons_self c' cs)
        · exact this.1 c' hc''

/-! ## Claim theorems: the allocator strands partial-court occupants (C2) -/

/-- C2: when the allocator reaches a court holding 1–3 players (all
courts before it full) while the queue holds at least 4, that court's
occupants are replaced by the first 4 players of the queue; an occupant
appearing nowhere else ends up on no court and not in the queue — removed
from circulation entirely. -/
theorem allocator_strands_occupants (d : AppData)
    (cs1 cs2 : List (List String)) (c : List String) (p : String)
    (hcourts : d.courts = cs1 ++ c :: cs2)
    (hfull : ∀ c' ∈ cs1, ¬c'.length < 4)
    (hc1 : 1 ≤ c.length) (hc3 : c.length ≤ 3) (hq4 : 4 ≤ d.queue.length)
    (hp : p ∈ c) (hpq : p ∉ d.queue)
    (hp1 : ∀ c' ∈ cs1, p ∉ c') (hp2 : ∀ c' ∈ cs2, p ∉ c') :
    (assign_all_courts d).courts =
      cs1 ++ d.queue.take 4 ::
        (assignCourtsAux cs2 (d.queue.drop 4)).1 ∧
    (d.queue.take 4).length = 4 ∧
    (∀ c' ∈ (assign_all_courts d).courts, p ∉ c') ∧
    p ∉ (assign_all_courts d).queue := by
  have hclt : c.length < 4 := by omega
  have hrw : assignCourtsAux d.courts d.queue =
      (cs1 ++ d.queue.take 4 :: (assignCourtsAux cs2 (d.queue.drop 4)).1,
        (assignCourtsAux cs2 (d.queue.drop 4)).2) := by
    rw [hcourts, assignCourtsAux_skipFull cs1 (c :: cs2) d.queue hfull,
      assignCourtsAux_cons_fill c cs2 d.queue hclt hq4]
  have hpq' : p ∉ d.queue.drop 4 := fun h => hpq (List.drop_subset 4 d.queue h)
  have hni := assignCourtsAux_not_introduced cs2 (d.queue.drop 4) p hpq' hp2
  refine ⟨?_, ?_, ?_, ?_⟩
  · simp only [assign_all_courts]
    rw [hrw]
  · simp [List.length_take, Nat.min_eq_left hq4]
  · simp only [assign_all_courts]
    rw [hrw]
    intro c' hc'
    simp only [List.mem_append, List.mem_cons] at hc'
    rcases hc' with hc' | rfl | hc'
    · exact hp1 c' hc'
    · intro h
      exact hpq (List.take_subset 4 d.queue h)
    · exact hni.1 c' hc'
  · simp only [assign_all_courts]
    rw [hrw]
    exact hni.2

theorem allocator_strands_occupants_witness :
    sampleStranded.courts = [] ++ ["X"] :: [[], []] ∧
    (∀ c' ∈ ([] : List (List String)), ¬c'.length < 4) ∧
    1 ≤ (["X"] : List String).length ∧ (["X"] : List String).length ≤ 3 ∧
    4 ≤ sampleStranded.queue.length ∧
    "X" ∈ (["X"] : List String) ∧ "X" ∉ sampleStranded.queue ∧
    ((∀ c' ∈ (assign_all_courts sampleStranded).courts, "X" ∉ c') ∧
      "X" ∉ (assign_all_courts sampleStranded).queue) :=
  ⟨by decide, by decide, by decide, by decide, by decide, by decide, by decide,
    (allocator_strands_occupants sampleStranded [] [[], []] ["X"] "X"
      (by decide) (by decide) (by decide) (by decide) (by decide) (by decide)
      (by decide) (by decide) (by decide)).2.2⟩

/-- One court reset, on a duplicate-free court disjoint from the queue
with auto-fill off: occupants move to the queue tail, the court empties,
streaks go through the zeroing loop. -/
theorem reset_step (pl q : List String) (cs : List (List String))
    (st : List (String × Nat)) (hi : List HistEntry) (i : Nat) (cp : List String)
    (hget : cs[i]? = some cp) (hnd : cp.Nodup) (hq : ∀ p ∈ cp, p ∉ q) :
    (reset_single_court i ⟨pl, q, cs, st, hi, false⟩).getD
        ⟨pl, q, cs, st, hi, false⟩ =
      ⟨pl, q ++ cp, cs.set i [], (enqueueReset (st, q) cp).1, hi, false⟩ := by
  have he := enqueueReset_snd_eq cp st q hnd hq
  simp only [reset_single_court]
  rw [show (⟨pl, q, cs, st, hi, false⟩ : AppData).courts[i]? = some cp from hget]
  simp only [auto_fill_if_enabled, Option.getD_some]
  rw [if_neg (by simp)]
  simp [he]

/-! ## Claim theorems: resetting all courts (C10) -/

/-- C10: `reset_all_courts` on three full, pairwise-distinct courts whose
occupants are not queued (auto-fill off) moves all 12 players to the
queue tail in ascending court order, empties every court, and zeroes
every occupant's streak; additionally, `reset_single_court` triggers the
allocator when the auto-fill flag is enabled, and the enqueue loop skips
a player already present in the queue. -/
theorem reset_all_courts_spec (d : AppData) (c0 c1 c2 : List String)
    (hcourts : d.courts = [c0, c1, c2]) (hnd : (c0 ++ c1 ++ c2).Nodup)
    (hq : ∀ p ∈ c0 ++ c1 ++ c2, p ∉ d.queue) (hauto : d.auto_fill = false)
    (hl0 : c0.length = 4) (hl1 : c1.length = 4) (hl2 : c2.length = 4) :
    (reset_all_courts d).queue = d.queue ++ c0 ++ c1 ++ c2 ∧
    (reset_all_courts d).courts = [[], [], []] ∧
    (∀ p ∈ c0 ++ c1 ++ c2, dictGet (reset_all_courts d).streaks p = 0) ∧
    (∀ (e : AppData) (j : Nat) (cj : List String), e.auto_fill = true →
        e.courts[j]? = some cj →
        reset_single_court j e = some (assign_all_courts
          { e with
              streaks := (enqueueReset (e.streaks, e.queue) cj).1,
              queue := (enqueueReset (e.streaks, e.queue) cj).2,
              courts := e.courts.set j [] })) ∧
    (∀ (m : List (String × Nat)) (q : List String) (p : String), p ∈ q →
        enqueueReset (m, q) [p] = (dictSet m p 0, q)) := by
  obtain ⟨pl, q, cs, st, hi, af⟩ := d
  simp only at hcourts hq hauto
  subst hcourts
  subst hauto
  obtain ⟨h01, hnd2, hd012⟩ := List.nodup_append.mp hnd
  obtain ⟨hnd0, hnd1, hd01⟩ := List.nodup_append.mp h01
  have hq0 : ∀ p ∈ c0, p ∉ q := fun p hp => hq p (by simp [hp])
  have hq1 : ∀ p ∈ c1, p ∉ q ++ c0 := by
    intro p hp hmem
    rcases List.mem_append.mp hmem with h | h
    · exact hq p (by simp [hp]) h
    · exact hd01 h hp
  have hq2 : ∀ p ∈ c2, p ∉ q ++ c0 ++ c1 := by
    intro p hp hmem
    rcases List.mem_append.mp hmem with h | h
    · rcases List.mem_append.mp h with h' | h'
      · exact hq p (by simp [hp]) h'
      · exact hd012 (List.mem_append_left c1 h') hp
    · exact hd012 (List.mem_append_right c0 h) hp
  have hrun : reset_all_courts ⟨pl, q, [c0, c1, c2], st, hi, false⟩ =
      (reset_single_court 2 ((reset_single_court 1
          ((reset_single_court 0 ⟨pl, q, [c0, c1, c2], st, hi, false⟩).getD
            ⟨pl, q, [c0, c1, c2], st, hi, false⟩)).getD
          ((reset_single_court 0 ⟨pl, q, [c0, c1, c2], st, hi, false⟩).getD
            ⟨pl, q, [c0, c1, c2], st, hi, false⟩))).getD
        ((reset_single_court 1
          ((reset_single_court 0 ⟨pl, q, [c0, c1, c2], st, hi, false⟩).getD
            ⟨pl, q, [c0, c1, c2], st, hi, false⟩)).getD
          ((reset_single_court 0 ⟨pl, q, [c0, c1, c2], st, hi, false⟩).getD
            ⟨pl, q, [c0, c1, c2], st, hi, false⟩)) := rfl
  rw [hrun, reset_step pl q [c0, c1, c2] st hi 0 c0 rfl hnd0 hq0]
  have hset0 : ([c0, c1, c2].set 0 []) = [[], c1, c2] := rfl
  rw [hset0, reset_step pl (q ++ c0) [[], c1, c2] _ hi 1 c1 rfl hnd1 hq1]
  have hset1 : ([[], c1, c2].set 1 ([] : List String)) = [[], [], c2] := rfl
  rw [hset1, reset_step pl (q ++ c0 ++ c1) [[], [], c2] _ hi 2 c2 rfl hnd2 hq2]
  refine ⟨rfl, rfl, ?_, ?_, ?_⟩
  · intro p hp
    simp only
    rw [enqueueReset_fst_get, enqueueReset_fst_get, enqueueReset_fst_get]
    rcases List.mem_append.mp hp with h | h2
    · rcases List.mem_append.mp h with h0 | h1
      · have hn2 : p ∉ c2 := fun hc => hd012 (List.mem_append_left c1 h0) hc
        have hn1 : p ∉ c1 := fun hc => hd01 h0 hc
        simp [hn2, hn1, h0]
      · have hn2 : p ∉ c2 := fun hc => hd012 (List.mem_append_right c0 h1) hc
        simp [hn2, h1]
    · simp [h2]
  · intro e j cj hafe hgete
    simp only [reset_single_court]
    rw [show e.courts[j]? = some cj from hgete]
    simp only [auto_fill_if_enabled]
    rw [if_pos (by simp [hafe])]
  · intro m qq p hp
    simp [enqueueReset, hp]

theorem reset_all_courts_spec_witness :
    sampleThreeCourts.courts =
      [["A", "B", "C", "D"], ["E", "F", "G", "H"], ["I", "J", "K", "L"]] ∧
    (["A", "B", "C", "D"] ++ ["E", "F", "G", "H"] ++
      ["I", "J", "K", "L"] : List String).Nodup ∧
    (∀ p ∈ (["A", "B", "C", "D"] ++ ["E", "F", "G", "H"] ++
      ["I", "J", "K", "L"] : List String), p ∉ sampleThreeCourts.queue) ∧
    sampleThreeCourts.auto_fill = false ∧
    (reset_all_courts sampleThreeCourts).queue =
      sampleThreeCourts.queue ++ ["A", "B", "C", "D"] ++ ["E", "F", "G", "H"] ++
        ["I", "J", "K", "L"] ∧
    (reset_all_courts sampleThreeCourts).courts = [[], [], []] :=
  ⟨by decide, by decide, by decide, by decide,
    (reset_all_courts_spec sampleThreeCourts ["A", "B", "C", "D"]
      ["E", "F", "G", "H"] ["I", "J", "K", "L"] (by decide) (by decide) (by decide)
      (by decide) (by decide) (by decide) (by decide)).1,
    (reset_all_courts_spec sampleThreeCourts ["A", "B", "C", "D"]
      ["E", "F", "G", "H"] ["I", "J", "K", "L"] (by decide) (by decide) (by decide)
      (by decide) (by decide) (by decide) (by decide)).2.1⟩

/-! ## Generic helpers for the no-duplication invariant -/

theorem pairwise_disjoint_of_getElem {cs : List (List String)}
    (h : cs.Pairwise List.Disjoint) {j k : Nat} (hj : j < cs.length)
    (hk : k < cs.length) (hjk : j ≠ k) : (cs[j]).Disjoint (cs[k]) := by
  rcases Nat.lt_or_ge j k with hlt | hge
  · exact (List.pairwise_iff_getElem.mp h) j k hj hk hlt
  · have hlt' : k < j := by omega
    exact List.disjoint_comm.mp ((List.pairwise_iff_getElem.mp h) k j hk hj hlt')

theorem pairwise_disjoint_set (cs : List (List String)) (i : Nat)
    (x : List String) (h : cs.Pairwise List.Disjoint)
    (hd : ∀ (j : Nat) (hj : j < cs.length), j ≠ i → x.Disjoint (cs[j])) :
    (cs.set i x).Pairwise List.Disjoint := by
  rw [List.pairwise_iff_getElem]
  intro j k hj hk hjk
  rw [List.length_set] at hj hk
  rw [List.getElem_set, List.getElem_set]
  by_cases hij : i = j
  · subst hij
    rw [if_pos rfl, if_neg (by omega)]
    exact hd k hk (by omega)
  · rw [if_neg hij]
    by_cases hik : i = k
    · subst hik
      rw [if_pos rfl]
      exact List.disjoint_comm.mp (hd j hj fun hc => hij hc.symm)
    · rw [if_neg hik]
      exact (List.pairwise_iff_getElem.mp h) j k hj hk hjk

theorem forall_mem_set_disjoint (cs : List (List String)) (i : Nat)
    (x : List String) (Q : List String) (hx : x.Disjoint Q)
    (hother : ∀ (j : Nat) (hj : j < cs.length), j ≠ i → (cs[j]).Disjoint Q) :
    ∀ c ∈ cs.set i x, c.Disjoint Q := by
  intro c hc
  rcases List.mem_iff_getElem.mp hc with ⟨j, hj, hcj⟩
  rw [List.length_set] at hj
  rw [List.getElem_set] at hcj
  by_cases hij : i = j
  · rw [if_pos hij] at hcj
    exact hcj ▸ hx
  · rw [if_neg hij] at hcj
    exact hcj ▸ hother j hj fun h' => hij h'.symm

/-! ## The invariant holds initially and is preserved by every operation -/

theorem inv_initialData : Inv initialData := by
  refine ⟨?_, ?_, ?_, ?_, ?_, ?_⟩ <;> simp [initialData, List.Disjoint]

theorem inv_set_auto_fill (b : Bool) (d : AppData) (h : Inv d) :
    Inv (set_auto_fill b d) := h

theorem inv_add_players (ns : List String) (d : AppData) (h : Inv d) :
    Inv (add_players ns d) := by
  induction ns generalizing d with
  | nil => exact h
  | cons n ns ih =>
      rw [add_players_cons]
      refine ih _ ?_
      by_cases hn : n ∈ d.players
      · simpa [add_players, hn] using h
      · obtain ⟨h1, h2, h3, h4, h5, h6⟩ := h
        have hnq : n ∉ d.queue := fun hc => hn (h5 n hc)
        simp only [add_players, List.foldl_cons, if_neg hn, List.foldl_nil]
        refine ⟨?_, ?_, ?_, ?_, ?_, ?_⟩
        · rw [List.nodup_append]
          refine ⟨h1, List.nodup_singleton n, ?_⟩
          intro x hx hx1
          rw [List.mem_singleton] at hx1
          exact hnq (hx1 ▸ hx)
        · exact h2
        · exact h3
        · intro c hc x hxc hxq
          rcases List.mem_append.mp hxq with hxq' | hxn
          · exact h4 c hc hxc hxq'
          · rw [List.mem_singleton] at hxn
            exact hn (hxn ▸ h6 c hc x hxc)
        · intro x hx
          rcases List.mem_append.mp hx with hx' | hxn
          · exact List.mem_append_left _ (h5 x hx')
          · exact List.mem_append_right _ hxn
        · intro c hc x hxc
          exact List.mem_append_left _ (h6 c hc x hxc)

/-- Allocator loop invariant: starting from a duplicate-free queue and
duplicate-free, pairwise-disjoint courts disjoint from the queue, the
loop keeps all of that, its output queue is a sublist of the input queue,
and every name on an output court was on some input court or in the
input queue. -/
theorem inv_assignAux (cs : List (List String)) (q : List String)
    (hq : q.Nodup) (hcn : ∀ c ∈ cs, c.Nodup)
    (hpw : cs.Pairwise List.Disjoint) (hcq : ∀ c ∈ cs, c.Disjoint q) :
    (assignCourtsAux cs q).2.Sublist q ∧
    (∀ c ∈ (assignCourtsAux cs q).1, c.Nodup) ∧
    (assignCourtsAux cs q).1.Pairwise List.Disjoint ∧
    (∀ c ∈ (assignCourtsAux cs q).1, c.Disjoint (assignCourtsAux cs q).2) ∧
    (∀ c ∈ (assignCourtsAux cs q).1, ∀ x ∈ c, (∃ c' ∈ cs, x ∈ c') ∨ x ∈ q) := by
  induction cs generalizing q with
  | nil =>
      simp only [assignCourtsAux]
      exact ⟨List.Sublist.refl q, by simp, by simp, by simp, by simp⟩
  | cons c cs ih =>
      have hcn' : ∀ c' ∈ cs, c'.Nodup := fun c' hc' => hcn c' (List.mem_cons_of_mem c hc')
      have hpwc := List.pairwise_cons.mp hpw
      by_cases hfill : c.length < 4 ∧ 4 ≤ q.length
      · rw [assignCourtsAux_cons_fill c cs q hfill.1 hfill.2]
        have hq' : (q.drop 4).Nodup := hq.sublist (List.drop_sublist 4 q)
        have hcq' : ∀ c' ∈ cs, c'.Disjoint (q.drop 4) := by
          intro c' hc' x hx hxd
          exact hcq c' (List.mem_cons_of_mem c hc') hx (List.drop_subset 4 q hxd)
        obtain ⟨s1, s2, s3, s4, s5⟩ := ih (q.drop 4) hq' hcn' hpwc.2 hcq'
        have htake_mem : ∀ x ∈ q.take 4, x ∈ q := fun x hx => List.take_subset 4 q hx
        have htake_disj_rest : ∀ c' ∈ (assignCourtsAux cs (q.drop 4)).1,
            (q.take 4).Disjoint c' := by
          intro c' hc' x hx hxc'
          rcases s5 c' hc' x hxc' with ⟨c'', hc'', hxc''⟩ | hxd
          · exact hcq c'' (List.mem_cons_of_mem c hc'') hxc'' (htake_mem x hx)
          · exact List.disjoint_take_drop hq (le_refl 4) hx hxd
        refine ⟨?_, ?_, ?_, ?_, ?_⟩
        · exact s1.trans (List.drop_sublist 4 q)
        · intro c' hc'
          rcases List.mem_cons.mp hc' with rfl | hc''
          · exact hq.sublist (List.take_sublist 4 q)
          · exact s2 c' hc''
        · exact List.pairwise_cons.mpr ⟨htake_disj_rest, s3⟩
        · intro c' hc'
          rcases List.mem_cons.mp hc' with rfl | hc''
          · intro x hx hxs
            exact List.disjoint_take_drop hq (le_refl 4) hx (s1.subset hxs)
          · exact s4 c' hc''
        · intro c' hc' x hxc'
          rcases List.mem_cons.mp hc' with rfl | hc''
          · exact Or.inr (htake_mem x hxc')
          · rcases s5 c' hc'' x hxc' with ⟨c'', hc''', hxc''⟩ | hxd
            · exact Or.inl ⟨c'', List.mem_cons_of_mem c hc''', hxc''⟩
            · exact Or.inr (List.drop_subset 4 q hxd)
      · rw [assignCourtsAux_cons_skip c cs q hfill]
        have hcq' : ∀ c' ∈ cs, c'.Disjoint q :=
          fun c' hc' => hcq c' (List.mem_cons_of_mem c hc')
        obtain ⟨s1, s2, s3, s4, s5⟩ := ih q hq hcn' hpwc.2 hcq'
        have hc_disj_rest : ∀ c' ∈ (assignCourtsAux cs q).1, c.Disjoint c' := by
          intro c' hc' x hx hxc'
          rcases s5 c' hc' x hxc' with ⟨c'', hc'', hxc''⟩ | hxq
          · exact hpwc.1 c'' hc'' hx hxc''
          · exact hcq c (List.mem_cons_self c cs) hx hxq
        refine ⟨s1, ?_, ?_, ?_, ?_⟩
        · intro c' hc'
          rcases List.mem_cons.mp hc' with rfl | hc''
          · exact hcn c' (List.mem_cons_self c' cs)
          · exact s2 c' hc''
        · exact List.pairwise_cons.mpr ⟨hc_disj_rest, s3⟩
        · intro c' hc'
          rcases List.mem_cons.mp hc' with rfl | hc''
          · intro x hx hxs
            exact hcq c' (List.mem_cons_self c' cs) hx (s1.subset hxs)
          · exact s4 c' hc''
        · intro c' hc' x hxc'
          rcases List.mem_cons.mp hc' with rfl | hc''
          · exact Or.inl ⟨c', List.mem_cons_self c' cs, hxc'⟩
          · rcases s5 c' hc'' x hxc' with ⟨c'', hc''', hxc''⟩ | hxq
            · exact Or.inl ⟨c'', List.mem_cons_of_mem c hc''', hxc''⟩
            · exact Or.inr hxq

theorem inv_assign_all_courts (d : AppData) (h : Inv d) :
    Inv (assign_all_courts d) := by
  obtain ⟨h1, h2, h3, h4, h5, h6⟩ := h
  obtain ⟨s1, s2, s3, s4, s5⟩ := inv_assignAux d.courts d.queue h1 h2 h3 h4
  refine ⟨s1.nodup h1, s2, s3, s4, ?_, ?_⟩
  · intro x hx
    exact h5 x (s1.subset hx)
  · intro c hc x hxc
    rcases s5 c hc x hxc with ⟨c', hc', hxc'⟩ | hxq
    · exact h6 c' hc' x hxc'
    · exact h5 x hxq

theorem inv_auto_fill_if_enabled (d : AppData) (h : Inv d) :
    Inv (auto_fill_if_enabled d) := by
  unfold auto_fill_if_enabled
  split
  · exact inv_assign_all_courts d h
  · exact h

theorem inv_resolveFull (d : AppData) (i : Nat) (w : String) (cp : List String)
    (hget : d.courts[i]? = some cp) (hinv : Inv d) :
    Inv (resolveFull i w cp d) := by
  obtain ⟨h1, h2, h3, h4, h5, h6⟩ := hinv
  obtain ⟨hlt, hgetEq⟩ := List.getElem?_eq_some.mp hget
  have hcpmem : cp ∈ d.courts := hgetEq ▸ List.getElem_mem hlt
  have hndcp : cp.Nodup := h2 cp hcpmem
  have hdq : cp.Disjoint d.queue := h4 cp hcpmem
  have hcpl : ∀ x ∈ cp, x ∈ d.players := h6 cp hcpmem
  have hScp : ∀ x ∈ stayingOf d.streaks (winnersOf w cp), x ∈ cp := fun x hx =>
    (winnersOf_sublist w cp).subset ((stayingOf_sublist _ _).subset hx)
  have hLLcp := resolve_LL_subset w cp d.streaks
  have hSnodup : (stayingOf d.streaks (winnersOf w cp)).Nodup :=
    hndcp.sublist ((stayingOf_sublist _ _).trans (winnersOf_sublist w cp))
  simp only [resolveFull]
  have q2nodup : (enqueueReset
      (incStreaks d.streaks (stayingOf d.streaks (winnersOf w cp)), d.queue)
      (losersOf w cp ++ leavingOf d.streaks (winnersOf w cp))).2.Nodup :=
    enqueueReset_snd_nodup _ _ _ h1
  have q2mem := enqueueReset_snd_mem
    (losersOf w cp ++ leavingOf d.streaks (winnersOf w cp))
    (incStreaks d.streaks (stayingOf d.streaks (winnersOf w cp))) d.queue
  have hq2cp : ∀ x ∈ (enqueueReset
      (incStreaks d.streaks (stayingOf d.streaks (winnersOf w cp)), d.queue)
      (losersOf w cp ++ leavingOf d.streaks (winnersOf w cp))).2,
      x ∈ d.queue ∨ x ∈ cp := by
    intro x hx
    rcases (q2mem x).mp hx with hxq | hxLL
    · exact Or.inl hxq
    · exact Or.inr (hLLcp x hxLL)
  have hSdisjq2 : (stayingOf d.streaks (winnersOf w cp)).Disjoint
      (enqueueReset
        (incStreaks d.streaks (stayingOf d.streaks (winnersOf w cp)), d.queue)
        (losersOf w cp ++ leavingOf d.streaks (winnersOf w cp))).2 := by
    intro x hxS hxq2
    rcases (q2mem x).mp hxq2 with hxq | hxLL
    · exact hdq (hScp x hxS) hxq
    · rcases List.mem_append.mp hxLL with hxl | hxlv
      · exact winnersOf_disjoint_losersOf w cp hndcp
          ((stayingOf_sublist _ _).subset hxS) hxl
      · exact stayingOf_disjoint_leavingOf d.streaks (winnersOf w cp) hxS hxlv
  have hNCnodup : (stayingOf d.streaks (winnersOf w cp) ++
      (enqueueReset
        (incStreaks d.streaks (stayingOf d.streaks (winnersOf w cp)), d.queue)
        (losersOf w cp ++ leavingOf d.streaks (winnersOf w cp))).2.take
        (4 - (stayingOf d.streaks (winnersOf w cp)).length)).Nodup := by
    rw [List.nodup_append]
    refine ⟨hSnodup, q2nodup.sublist (List.take_sublist _ _), ?_⟩
    intro x hxS hxt
    exact hSdisjq2 hxS (List.take_subset _ _ hxt)
  have hNCsrc : ∀ x ∈ stayingOf d.streaks (winnersOf w cp) ++
      (enqueueReset
        (incStreaks d.streaks (stayingOf d.streaks (winnersOf w cp)), d.queue)
        (losersOf w cp ++ leavingOf d.streaks (winnersOf w cp))).2.take
        (4 - (stayingOf d.streaks (winnersOf w cp)).length),
      x ∈ cp ∨ x ∈ d.queue := by
    intro x hx
    rcases List.mem_append.mp hx with hxS | hxt
    · exact Or.inl (hScp x hxS)
    · rcases hq2cp x (List.take_subset _ _ hxt) with hxq | hxcp
      · exact Or.inr hxq
      · exact Or.inl hxcp
  have hNCdisj_drop : (stayingOf d.streaks (winnersOf w cp) ++
      (enqueueReset
        (incStreaks d.streaks (stayingOf d.streaks (winnersOf w cp)), d.queue)
        (losersOf w cp ++ leavingOf d.streaks (winnersOf w cp))).2.take
        (4 - (stayingOf d.streaks (winnersOf w cp)).length)).Disjoint
      ((enqueueReset
        (incStreaks d.streaks (stayingOf d.streaks (winnersOf w cp)), d.queue)
        (losersOf w cp ++ leavingOf d.streaks (winnersOf w cp))).2.drop
        (4 - (stayingOf d.streaks (winnersOf w cp)).length)) := by
    intro x hx hxd
    rcases List.mem_append.mp hx with hxS | hxt
    · exact hSdisjq2 hxS (List.drop_subset _ _ hxd)
    · exact List.disjoint_take_drop q2nodup
        (le_refl (4 - (stayingOf d.streaks (winnersOf w cp)).length)) hxt hxd
  have hcsj_cp : ∀ (j : Nat) (hj : j < d.courts.length), j ≠ i →
      (d.courts[j]).Disjoint cp := by
    intro j hj hji
    have := pairwise_disjoint_of_getElem h3 hj hlt hji
    rwa [hgetEq] at this
  unfold Inv
  refine ⟨?_, ?_, ?_, ?_, ?_, ?_⟩
  · exact q2nodup.sublist (List.drop_sublist _ _)
  · intro c hc
    rcases List.mem_or_eq_of_mem_set hc with hc' | rfl
    · exact h2 c hc'
    · exact hNCnodup
  · refine pairwise_disjoint_set _ i _ h3 ?_
    intro j hj hji x hxNC hxj
    rcases hNCsrc x hxNC with hxcp | hxq
    · exact hcsj_cp j hj hji hxj hxcp
    · exact h4 (d.courts[j]) (List.getElem_mem hj) hxj hxq
  · refine forall_mem_set_disjoint _ i _ _ hNCdisj_drop ?_
    intro j hj hji x hxj hxd
    rcases hq2cp x (List.drop_subset _ _ hxd) with hxq | hxcp
    · exact h4 (d.courts[j]) (List.getElem_mem hj) hxj hxq
    · exact hcsj_cp j hj hji hxj hxcp
  · intro x hx
    rcases hq2cp x (List.drop_subset _ _ hx) with hxq | hxcp
    · exact h5 x hxq
    · exact hcpl x hxcp
  · intro c hc x hxc
    rcases List.mem_or_eq_of_mem_set hc with hc' | rfl
    · exact h6 c hc' x hxc
    · rcases hNCsrc x hxc with hxcp | hxq
      · exact hcpl x hxcp
      · exact h5 x hxq

theorem inv_process_court_winner (i : Nat) (w : String) (d : AppData)
    (hinv : Inv d) : Inv ((process_court_winner i w d).getD d) := by
  unfold process_court_winner
  cases hget : d.courts[i]? with
  | none => exact hinv
  | some cp =>
      show Inv ((if cp.length = 4 then some (resolveFull i w cp d)
        else some d).getD d)
      split
      · exact inv_resolveFull d i w cp hget hinv
      · exact hinv

theorem inv_updateOne (sel : Nat → String) (d : AppData) (i : Nat)
    (hinv : Inv d) : Inv (updateOne sel d i) := by
  unfold updateOne
  split
  · exact inv_process_court_winner i (sel i) d hinv
  · exact hinv

theorem inv_foldl {β : Type} (f : AppData → β → AppData) (l : List β)
    (d : AppData) (hf : ∀ d b, Inv d → Inv (f d b)) (h : Inv d) :
    Inv (l.foldl f d) := by
  induction l generalizing d with
  | nil => exact h
  | cons b l ih => exact ih (f d b) (hf d b h)

theorem inv_update_all_courts (sel : Nat → String) (d : AppData)
    (hinv : Inv d) : Inv (update_all_courts sel d) := by
  unfold update_all_courts
  exact inv_auto_fill_if_enabled _
    (inv_foldl (updateOne sel) _ d (fun d' i h => inv_updateOne sel d' i h) hinv)

theorem inv_reset_single_court (i : Nat) (d : AppData) (hinv : Inv d) :
    Inv ((reset_single_court i d).getD d) := by
  unfold reset_single_court
  cases hget : d.courts[i]? with
  | none => exact hinv
  | some cp =>
      simp only [Option.getD_some]
      refine inv_auto_fill_if_enabled _ ?_
      obtain ⟨h1, h2, h3, h4, h5, h6⟩ := hinv
      obtain ⟨hlt, hgetEq⟩ := List.getElem?_eq_some.mp hget
      have hcpmem : cp ∈ d.courts := hgetEq ▸ List.getElem_mem hlt
      have hcpl : ∀ x ∈ cp, x ∈ d.players := h6 cp hcpmem
      have q2mem := enqueueReset_snd_mem cp d.streaks d.queue
      have hq2src : ∀ x ∈ (enqueueReset (d.streaks, d.queue) cp).2,
          x ∈ d.queue ∨ x ∈ cp := fun x hx => (q2mem x).mp hx
      have hcsj_cp : ∀ (j : Nat) (hj : j < d.courts.length), j ≠ i →
          (d.courts[j]).Disjoint cp := by
        intro j hj hji
        have := pairwise_disjoint_of_getElem h3 hj hlt hji
        rwa [hgetEq] at this
      unfold Inv
      refine ⟨?_, ?_, ?_, ?_, ?_, ?_⟩
      · exact enqueueReset_snd_nodup cp d.streaks d.queue h1
      · intro c hc
        rcases List.mem_or_eq_of_mem_set hc with hc' | rfl
        · exact h2 c hc'
        · exact List.nodup_nil
      · refine pairwise_disjoint_set _ i _ h3 ?_
        intro j hj hji x hxNC hxj
        cases hxNC
      · refine forall_mem_set_disjoint _ i _ _ ?_ ?_
        · intro x hx
          cases hx
        · intro j hj hji x hxj hxq2
          rcases hq2src x hxq2 with hxq | hxcp
          · exact h4 (d.courts[j]) (List.getElem_mem hj) hxj hxq
          · exact hcsj_cp j hj hji hxj hxcp
      · intro x hx
        rcases hq2src x hx with hxq | hxcp
        · exact h5 x hxq
        · exact hcpl x hxcp
      · intro c hc x hxc
        rcases List.mem_or_eq_of_mem_set hc with hc' | rfl
        · exact h6 c hc' x hxc
        · cases hxc

theorem inv_reset_all_courts (d : AppData) (hinv : Inv d) :
    Inv (reset_all_courts d) := by
  unfold reset_all_courts
  exact inv_foldl _ _ d (fun d' i h => inv_reset_single_court i d' h) hinv

theorem inv_applyOp (d : AppData) (op : Op) (h : Inv d) : Inv (applyOp d op) := by
  cases op with
  | addPlayers ns => exact inv_add_players ns d h
  | setAutoFill b => exact inv_set_auto_fill b d h
  | assignAll => exact inv_assign_all_courts d h
  | processWinner i w => exact inv_process_court_winner i w d h
  | updateAll sel => exact inv_update_all_courts sel d h
  | resetCourt i => exact inv_reset_single_court i d h
  | resetAllCourts => exact inv_reset_all_courts d h
  | resetEverything => exact inv_initialData

theorem inv_runOps (ops : List Op) : Inv (runOps ops) := by
  unfold runOps
  exact inv_foldl applyOp ops initialData inv_applyOp inv_initialData

/-! ## Claim theorems: no-duplication invariants (C6) -/

/-- C6: starting from the empty initial state, after any sequence of
operations, no name appears twice in the queue, no two courts share a
name, no court repeats a name, and no name is simultaneously on a court
and in the queue. -/
theorem no_duplication_invariant (ops : List Op) :
    (runOps ops).queue.Nodup ∧
    (runOps ops).courts.Pairwise List.Disjoint ∧
    (∀ c ∈ (runOps ops).courts, c.Nodup) ∧
    ∀ c ∈ (runOps ops).courts, c.Disjoint (runOps ops).queue := by
  obtain ⟨h1, h2, h3, h4, h5, h6⟩ := inv_runOps ops
  exact ⟨h1, h3, h2, h4⟩

/-! ## History lemmas -/

theorem add_players_history (ns : List String) (d : AppData) :
    (add_players ns d).history = d.history := by
  induction ns generalizing d with
  | nil => rfl
  | cons n ns ih =>
      rw [add_players_cons, ih]
      by_cases hn : n ∈ d.players <;> simp [add_players, hn]

theorem assign_all_courts_history (d : AppData) :
    (assign_all_courts d).history = d.history := rfl

theorem auto_fill_if_enabled_history (d : AppData) :
    (auto_fill_if_enabled d).history = d.history := by
  unfold auto_fill_if_enabled
  split <;> rfl

theorem reset_single_court_history (i : Nat) (d : AppData) :
    ((reset_single_court i d).getD d).history = d.history := by
  unfold reset_single_court
  cases hget : d.courts[i]? with
  | none => rfl
  | some cp =>
      show (auto_fill_if_enabled _).history = d.history
      rw [auto_fill_if_enabled_history]

theorem reset_all_courts_history (d : AppData) :
    (reset_all_courts d).history = d.history := by
  unfold reset_all_courts
  generalize List.range d.courts.length = l
  induction l generalizing d with
  | nil => rfl
  | cons i l ih =>
      rw [List.foldl_cons, ih, reset_single_court_history]

theorem updateOne_history_extend (sel : Nat → String) (d : AppData) (i : Nat) :
    d.history <+: (updateOne sel d i).history := by
  unfold updateOne
  split
  · unfold process_court_winner
    cases hget : d.courts[i]? with
    | none => exact ⟨[], List.append_nil _⟩
    | some cp =>
        show d.history <+: ((if cp.length = 4 then some (resolveFull i (sel i) cp d)
          else some d).getD d).history
        split
        · exact ⟨[⟨i + 1, sel i, cp⟩], rfl⟩
        · exact ⟨[], List.append_nil _⟩
  · exact ⟨[], List.append_nil _⟩

theorem update_foldl_history_extend (sel : Nat → String) (l : List Nat)
    (d : AppData) : d.history <+: (l.foldl (updateOne sel) d).history := by
  induction l generalizing d with
  | nil => exact ⟨[], List.append_nil _⟩
  | cons i l ih =>
      exact (updateOne_history_extend sel d i).trans (ih (updateOne sel d i))

/-! ## Claim theorems: history (C7) -/

/-- C7 counterexample: the full reset (`reset_everything`) clears the
history, so history length can decrease under a core operation. -/
theorem history_cleared_by_full_reset :
    sampleWithHistory.history.length = 1 ∧
    (reset_everything sampleWithHistory).history.length = 0 ∧
    ¬sampleWithHistory.history.length ≤
      (reset_everything sampleWithHistory).history.length := by
  refine ⟨rfl, rfl, by decide⟩

/-- C7 amended: a resolve on a full court appends exactly one history
entry recording the pre-resolution players and the declared winning
side; player admission, the allocator, court resets and the auto-fill
toggle leave history untouched, and the batch update only extends it —
but the full reset (`reset_everything`) clears history entirely. -/
theorem history_append_only :
    (∀ (d : AppData) (i : Nat) (w : String) (cp : List String),
        d.courts[i]? = some cp → cp.length = 4 →
        process_court_winner i w d = some (resolveFull i w cp d) ∧
        (resolveFull i w cp d).history = d.history ++ [⟨i + 1, w, cp⟩]) ∧
    (∀ (ns : List String) (d : AppData),
        (add_players ns d).history = d.history) ∧
    (∀ d : AppData, (assign_all_courts d).history = d.history) ∧
    (∀ (i : Nat) (d : AppData),
        ((reset_single_court i d).getD d).history = d.history) ∧
    (∀ d : AppData, (reset_all_courts d).history = d.history) ∧
    (∀ (b : Bool) (d : AppData), (set_auto_fill b d).history = d.history) ∧
    (∀ (sel : Nat → String) (d : AppData),
        d.history <+: (update_all_courts sel d).history) ∧
    (∀ d : AppData, (reset_everything d).history = []) := by
  refine ⟨?_, add_players_history, fun d => rfl, reset_single_court_history,
    reset_all_courts_history, fun b d => rfl, ?_, fun d => rfl⟩
  · intro d i w cp hget hlen
    refine ⟨?_, rfl⟩
    simp [process_court_winner, hget, hlen]
  · intro sel d
    unfold update_all_courts
    rw [auto_fill_if_enabled_history]
    exact update_foldl_history_extend sel _ d

theorem history_append_only_witness :
    sampleFull.courts[0]? = some ["A", "B", "C", "D"] ∧
    (["A", "B", "C", "D"] : List String).length = 4 ∧
    (process_court_winner 0 "Team 1" sampleFull =
        some (resolveFull 0 "Team 1" ["A", "B", "C", "D"] sampleFull) ∧
      (resolveFull 0 "Team 1" ["A", "B", "C", "D"] sampleFull).history =
        sampleFull.history ++ [⟨1, "Team 1", ["A", "B", "C", "D"]⟩]) ∧
    (reset_everything initialData).history = [] :=
  ⟨by decide, by decide,
    history_append_only.1 sampleFull 0 "Team 1" ["A", "B", "C", "D"]
      (by decide) (by decide),
    history_append_only.2.2.2.2.2.2.2 initialData⟩

/-! ## Claim theorems: the streak cap (C1) -/

/-- C1 counterexample: on `sampleStreak1`, player `A` has streak 1 and
wins again, yet `A` stays on court 0 with streak 2 and is not enqueued —
the code splits winners by their streak BEFORE incrementing, so reaching
the cap does not trigger departure in the same resolution. -/
theorem streak_cap_counterexample :
    dictGet sampleStreak1.streaks "A" = 1 ∧
    process_court_winner 0 "Team 1" sampleStreak1 = some sampleStreak1After ∧
    "A" ∈ sampleStreak1After.courts.getD 0 [] ∧
    dictGet sampleStreak1After.streaks "A" = 2 ∧
    "A" ∉ sampleStreak1After.queue := by
  refine ⟨by rfl, by rfl, by decide, by rfl, by decide⟩

/-- C1 amended: `process_court_winner` on a full court splits the winners
by their streak BEFORE this game: winners whose streak had already
reached the cap of 2 are forced out (streak reset to 0, appended to the
queue tail after the losers, before the refill), while winners below the
cap stay on the court and have their streak incremented by 1.  A winner
whose streak was 1 therefore stays with streak 2 and departs only upon a
further win. -/
theorem streak_cap_amended (d : AppData) (i : Nat) (w : String)
    (cp : List String) (hget : d.courts[i]? = some cp) (hlen : cp.length = 4)
    (hnd : cp.Nodup) (hdq : ∀ p ∈ cp, p ∉ d.queue) :
    process_court_winner i w d = some (resolveFull i w cp d) ∧
    stayingOf d.streaks (winnersOf w cp) =
      (winnersOf w cp).filter (fun p => decide (dictGet d.streaks p < 2)) ∧
    leavingOf d.streaks (winnersOf w cp) =
      (winnersOf w cp).filter (fun p => decide (2 ≤ dictGet d.streaks p)) ∧
    (resolveFull i w cp d).queue =
      (d.queue ++ losersOf w cp ++ leavingOf d.streaks (winnersOf w cp)).drop
        (4 - (stayingOf d.streaks (winnersOf w cp)).length) ∧
    (resolveFull i w cp d).courts =
      d.courts.set i (stayingOf d.streaks (winnersOf w cp) ++
        (d.queue ++ losersOf w cp ++ leavingOf d.streaks (winnersOf w cp)).take
          (4 - (stayingOf d.streaks (winnersOf w cp)).length)) ∧
    (∀ p ∈ winnersOf w cp, 2 ≤ dictGet d.streaks p →
        dictGet (resolveFull i w cp d).streaks p = 0) ∧
    (∀ p ∈ winnersOf w cp, dictGet d.streaks p < 2 →
        p ∈ stayingOf d.streaks (winnersOf w cp) ∧
        dictGet (resolveFull i w cp d).streaks p = dictGet d.streaks p + 1) := by
  have hq2 := resolve_queue_eq w cp d.streaks
    (incStreaks d.streaks (stayingOf d.streaks (winnersOf w cp))) d.queue hnd hdq
  refine ⟨?_, rfl, rfl, ?_, ?_, ?_, ?_⟩
  · simp [process_court_winner, hget, hlen]
  · simp only [resolveFull]
    rw [hq2]
  · simp only [resolveFull]
    rw [hq2]
  · intro p hp hcap
    exact resolve_streak_leaving i w cp d p
      (List.mem_append_right _ ((mem_leavingOf _ _ _).mpr ⟨hp, hcap⟩))
  · intro p hp hlt
    have hstay : p ∈ stayingOf d.streaks (winnersOf w cp) :=
      (mem_stayingOf _ _ _).mpr ⟨hp, hlt⟩
    exact ⟨hstay, resolve_streak_staying i w cp d p hnd hstay⟩

theorem streak_cap_amended_witness :
    sampleStreak1.courts[0]? = some ["A", "B", "C", "D"] ∧
    (["A", "B", "C", "D"] : List String).length = 4 ∧
    (["A", "B", "C", "D"] : List String).Nodup ∧
    (∀ p ∈ (["A", "B", "C", "D"] : List String), p ∉ sampleStreak1.queue) ∧
    process_court_winner 0 "Team 1" sampleStreak1 =
      some (resolveFull 0 "Team 1" ["A", "B", "C", "D"] sampleStreak1) :=
  ⟨by decide, by decide, by decide, by decide,
    (streak_cap_amended sampleStreak1 0 "Team 1" ["A", "B", "C", "D"] (by decide)
      (by decide) (by decide) (by decide)).1⟩

/-! ## Claim theorems: resolution Scenario 2 (C5) -/

/-- C5: on a full court `[A,B,C,D]` whose four players all have streak 0
and are not in the queue, `resolve(0, Team 1)` gives streaks
`A=1, B=1, C=0, D=0`, appends the losers `C` then `D` (in that order) to
the queue tail, and refills court 0 back to exactly 4 players from the
queue head. -/
theorem scenario2_resolve (d : AppData) (A B C D : String)
    (hget : d.courts[0]? = some [A, B, C, D])
    (hnd : ([A, B, C, D] : List String).Nodup)
    (hq : ∀ p ∈ ([A, B, C, D] : List String), p ∉ d.queue)
    (hA : dictGet d.streaks A = 0) (hB : dictGet d.streaks B = 0)
    (hC : dictGet d.streaks C = 0) (hD : dictGet d.streaks D = 0) :
    process_court_winner 0 "Team 1" d = some (resolveFull 0 "Team 1" [A, B, C, D] d) ∧
    dictGet (resolveFull 0 "Team 1" [A, B, C, D] d).streaks A = 1 ∧
    dictGet (resolveFull 0 "Team 1" [A, B, C, D] d).streaks B = 1 ∧
    dictGet (resolveFull 0 "Team 1" [A, B, C, D] d).streaks C = 0 ∧
    dictGet (resolveFull 0 "Team 1" [A, B, C, D] d).streaks D = 0 ∧
    (resolveFull 0 "Team 1" [A, B, C, D] d).queue = (d.queue ++ [C, D]).drop 2 ∧
    (resolveFull 0 "Team 1" [A, B, C, D] d).courts =
      d.courts.set 0 ([A, B] ++ (d.queue ++ [C, D]).take 2) ∧
    ((resolveFull 0 "Team 1" [A, B, C, D] d).courts.getD 0 []).length = 4 := by
  have hw : winnersOf "Team 1" [A, B, C, D] = [A, B] := by
    simp [winnersOf]
  have hl : losersOf "Team 1" [A, B, C, D] = [C, D] := by
    simp [losersOf]
  have hstay : stayingOf d.streaks (winnersOf "Team 1" [A, B, C, D]) = [A, B] := by
    rw [hw]
    simp [stayingOf, List.filter_cons, hA, hB]
  have hleave : leavingOf d.streaks (winnersOf "Team 1" [A, B, C, D]) = [] := by
    rw [hw]
    simp [leavingOf, List.filter_cons, hA, hB]
  have hq2 := resolve_queue_eq "Team 1" [A, B, C, D] d.streaks
    (incStreaks d.streaks (stayingOf d.streaks (winnersOf "Team 1" [A, B, C, D])))
    d.queue hnd hq
  have hmemA : A ∈ stayingOf d.streaks (winnersOf "Team 1" [A, B, C, D]) := by
    rw [hstay]; exact List.mem_cons_self A [B]
  have hmemB : B ∈ stayingOf d.streaks (winnersOf "Team 1" [A, B, C, D]) := by
    rw [hstay]; simp
  have hmemC : C ∈ losersOf "Team 1" [A, B, C, D] ++
      leavingOf d.streaks (winnersOf "Team 1" [A, B, C, D]) := by
    rw [hl]; simp
  have hmemD : D ∈ losersOf "Team 1" [A, B, C, D] ++
      leavingOf d.streaks (winnersOf "Team 1" [A, B, C, D]) := by
    rw [hl]; simp
  have hcourts : (resolveFull 0 "Team 1" [A, B, C, D] d).courts =
      d.courts.set 0 ([A, B] ++ (d.queue ++ [C, D]).take 2) := by
    simp only [resolveFull]
    rw [hq2, hstay, hl, hleave]
    simp
  refine ⟨?_, ?_, ?_, ?_, ?_, ?_, hcourts, ?_⟩
  · simp [process_court_winner, hget]
  · rw [resolve_streak_staying 0 "Team 1" [A, B, C, D] d A hnd hmemA, hA]
  · rw [resolve_streak_staying 0 "Team 1" [A, B, C, D] d B hnd hmemB, hB]
  · exact resolve_streak_leaving 0 "Team 1" [A, B, C, D] d C hmemC
  · exact resolve_streak_leaving 0 "Team 1" [A, B, C, D] d D hmemD
  · simp only [resolveFull]
    rw [hq2, hstay, hl, hleave]
    simp
  · rw [hcourts]
    have hlen0 : 0 < d.courts.length := by
      have := List.getElem?_eq_some.mp hget
      exact this.1
    rw [List.getD_eq_getElem?_getD, List.getElem?_set_self ?_]
    · simp [List.length_take, List.length_append]
    · simpa using hlen0

theorem scenario2_resolve_witness :
    sampleFull.courts[0]? = some ["A", "B", "C", "D"] ∧
    (["A", "B", "C", "D"] : List String).Nodup ∧
    (∀ p ∈ (["A", "B", "C", "D"] : List String), p ∉ sampleFull.queue) ∧
    dictGet sampleFull.streaks "A" = 0 ∧ dictGet sampleFull.streaks "B" = 0 ∧
    dictGet sampleFull.streaks "C" = 0 ∧ dictGet sampleFull.streaks "D" = 0 ∧
    process_court_winner 0 "Team 1" sampleFull =
      some (resolveFull 0 "Team 1" ["A", "B", "C", "D"] sampleFull) :=
  ⟨by decide, by decide, by decide, by decide, by decide, by decide, by decide,
    (scenario2_resolve sampleFull "A" "B" "C" "D" (by decide) (by decide) (by decide)
      (by decide) (by decide) (by decide) (by decide)).1⟩

end Pickleball
